import Mathlib

/-
  Verification of the customer deduplication and record-lifecycle engine
  (src/app/data_management.py): name normalization, similarity scoring,
  match classification, match finding, and the merge/archive/restore
  operations on the warehouse state.

  Strings are modelled over Lean `Char` with Python's ASCII behaviour for
  `str.lower`, `\s`, `\d` and `str.split`; similarity scores are exact
  rationals standing for the Python float computations.
-/

set_option maxHeartbeats 1000000
set_option maxRecDepth 4000

/- Batteries marks the rational operations irreducible; concrete score
computations in witnesses and counterexamples need them to evaluate. -/
attribute [local semireducible] Rat.add Rat.mul Rat.inv Rat.sub Rat.ofScientific

namespace DataMgmt

/-! ### Name normalizer (`normalize_customer_name`) -/

/-- Characters of Python's whitespace class `\s` / `str.split()` (ASCII). -/
def isPySpace (c : Char) : Bool :=
  c = ' ' || c = '\t' || c = '\n' || c = '\r' || c = '\x0b' || c = '\x0c'

/-- Python regex `\d` (ASCII digits). -/
def isAsciiDigitC (c : Char) : Bool := '0' ≤ c && c ≤ '9'

/-- Regex class `a-z`. -/
def isLowerAZ (c : Char) : Bool := 'a' ≤ c && c ≤ 'z'

/-- The separator characters of the regex class `[:\-_/\\]`. -/
def isSepChar (c : Char) : Bool :=
  c = ':' || c = '-' || c = '_' || c = '/' || c = '\\'

/-- Match a literal character sequence at the head of the input, returning
    the remainder on success. -/
def dropLit : List Char → List Char → Option (List Char)
  | [], s => some s
  | _ :: _, [] => none
  | p :: ps, c :: cs => if c = p then dropLit ps cs else none

/-- Expect one specific character at the head. -/
def expectChar (ch : Char) : List Char → Option (List Char)
  | [] => none
  | c :: cs => if c = ch then some cs else none

/-- Expect `\d+` (one or more ASCII digits); greedy matching is exact here
    because the following character of the pattern, `:`, is not a digit. -/
def expectDigits1 (s : List Char) : Option (List Char) :=
  if (s.takeWhile isAsciiDigitC).isEmpty then none
  else some (s.dropWhile isAsciiDigitC)

/-- The anchored pattern `^<kw>\s*-\s*\d+:` (used with kw = local, export);
    greedy `\s*` is exact because `-` and `\d` are not whitespace. -/
def matchKwNum (kw : List Char) (s : List Char) : Option (List Char) := do
  let s ← dropLit kw s
  let s := s.dropWhile isPySpace
  let s ← expectChar '-' s
  let s := s.dropWhile isPySpace
  let s ← expectDigits1 s
  expectChar ':' s

/-- The anchored pattern `^the\s+`. -/
def matchTheKw (s : List Char) : Option (List Char) := do
  let s ← dropLit ['t', 'h', 'e'] s
  if (s.takeWhile isPySpace).isEmpty then none
  else some (s.dropWhile isPySpace)

/-- The three `re.sub` calls removing low-information leading patterns; `^`
    anchoring means each substitutes at most once, at the start. The input
    is already lowercased, so IGNORECASE adds nothing. -/
def stripLeadPatterns (s : List Char) : List Char :=
  let s1 := (matchKwNum ['l', 'o', 'c', 'a', 'l'] s).getD s
  let s2 := (matchKwNum ['e', 'x', 'p', 'o', 'r', 't'] s1).getD s1
  (matchTheKw s2).getD s2

/-- The call `re.sub(r'[:\-_/\\]+', ' ', name)`: each maximal run of separator
    characters becomes a single space; the flag records whether the
    previous character was part of a separator run. -/
def replaceSepsAux : Bool → List Char → List Char
  | _, [] => []
  | prevSep, c :: cs =>
      if isSepChar c then
        if prevSep then replaceSepsAux true cs
        else ' ' :: replaceSepsAux true cs
      else c :: replaceSepsAux false cs

def replaceSeps (s : List Char) : List Char := replaceSepsAux false s

/-- Characters kept by `re.sub(r'[^a-z0-9\s]', '', name)`. -/
def keepChar (c : Char) : Bool := isLowerAZ c || isAsciiDigitC c || isPySpace c

/-- Python `str.split()` with no argument: split on whitespace runs, dropping empty
    pieces; the accumulator holds the current word reversed. -/
def wordsAux : List Char → List Char → List (List Char)
  | cur, [] => if cur.isEmpty then [] else [cur.reverse]
  | cur, c :: cs =>
      if isPySpace c then
        if cur.isEmpty then wordsAux [] cs
        else cur.reverse :: wordsAux [] cs
      else wordsAux (c :: cur) cs

def pyWordsL (s : List Char) : List (List Char) := wordsAux [] s

/-- Python `str.strip()`: drop whitespace from both ends. -/
def pyStrip (s : List Char) : List Char :=
  ((s.dropWhile isPySpace).reverse.dropWhile isPySpace).reverse

/-- Python `' '.join(words)`. -/
def joinSp : List (List Char) → List Char
  | [] => []
  | [w] => w
  | w :: w' :: ws => w ++ ' ' :: joinSp (w' :: ws)

/-- The function `normalize_customer_name`, on character lists.  Python `str.lower` is
    modelled by `Char.toLower` (ASCII case folding). -/
def normChars (s : List Char) : List Char :=
  if s.isEmpty then []
  else
    let s := s.map Char.toLower
    let s := stripLeadPatterns s
    let s := replaceSeps s
    let s := s.filter keepChar
    let s := joinSp (pyWordsL s)
    pyStrip s

def normalize_customer_name (name : String) : String :=
  ⟨normChars name.data⟩

/-! ### Word extraction (`extract_name_parts`) -/

def stopwords : List String :=
  ["the", "a", "an", "and", "or", "of", "for", "to", "in", "on", "at"]

/-- The function `extract_name_parts`: split the normalized name and keep the tokens of
    length greater than one that are not stopwords. -/
def extract_name_parts (name : String) : List String :=
  let parts := (pyWordsL (normalize_customer_name name).data).map
    (fun w => (⟨w⟩ : String))
  parts.filter (fun p => decide (1 < p.length) && !(stopwords.contains p))

/-- Characters that survive normalization inside words: lowercase ASCII
letters and digits. -/
def goodChar (c : Char) : Bool := isLowerAZ c || isAsciiDigitC c

/-- A word of a normalized name: non-empty, all characters good. -/
def GoodWord (w : List Char) : Prop := w ≠ [] ∧ ∀ c ∈ w, goodChar c = true

def GoodWords (ws : List (List Char)) : Prop := ∀ w ∈ ws, GoodWord w

/-! ### difflib SequenceMatcher (ratio), as used with `isjunk = None`

The similarity scorer calls `SequenceMatcher(None, norm1, norm2).ratio()`.
With `isjunk = None` the junk set is empty, so the two junk-absorbing
extension loops of `find_longest_match` never fire and are omitted; the
autojunk purge of popular elements (second sequence of length at least 200)
is kept. -/

/-- The index `b2j`: positions of `c` in `b`, ascending, with the autojunk purge:
when `len(b) >= 200`, an element occurring more than `len(b)//100 + 1`
times is dropped from the index. -/
def b2jList (b : List Char) (c : Char) : List Nat :=
  let ps := (List.range b.length).filter (fun j => b.getD j ' ' = c)
  if 200 ≤ b.length && b.length / 100 + 1 < ps.length then [] else ps

/-- The running best block of `find_longest_match`. -/
structure FBest where
  besti : Nat
  bestj : Nat
  bestsize : Nat
deriving DecidableEq

/-- Inner loop of `find_longest_match` for one position `i` of `a`:
`j2len` is the dictionary from the previous iteration (default 0), the
accumulator carries the dictionary being built and the current best; `k`
is `j2len.get(j-1, 0) + 1` (the `j = 0` guard models the Python key `-1`,
never present). -/
def flmInner (i : Nat) (j2len : Nat → Nat) :
    List Nat → ((Nat → Nat) × FBest) → ((Nat → Nat) × FBest)
  | [], acc => acc
  | j :: js, (nj, best) =>
      let k := (if j = 0 then 0 else j2len (j - 1)) + 1
      let best' : FBest :=
        if best.bestsize < k then ⟨i + 1 - k, j + 1 - k, k⟩ else best
      flmInner i j2len js (fun j' => if j' = j then k else nj j', best')

/-- Outer loop of `find_longest_match` over the positions of `a` in the
window; the `continue`/`break` on `j < blo` / `j >= bhi` is the shown
filter because the `b2j` list is ascending. -/
def flmLoop (a b : List Char) (blo bhi : Nat) :
    List Nat → (Nat → Nat) → FBest → FBest
  | [], _, best => best
  | i :: is, j2len, best =>
      let js := (b2jList b (a.getD i ' ')).filter
        (fun j => decide (blo ≤ j) && decide (j < bhi))
      let r := flmInner i j2len js ((fun _ => 0), best)
      flmLoop a b blo bhi is r.1 r.2

/-- First extension loop: grow the best block to the left over matching
characters (none of which are junk here); it runs at most `besti` times,
which is the fuel. -/
def extLeft (a b : List Char) (alo blo : Nat) : Nat → FBest → FBest
  | 0, st => st
  | fuel + 1, st =>
      if alo < st.besti ∧ blo < st.bestj ∧
          a.getD (st.besti - 1) ' ' = b.getD (st.bestj - 1) ' ' then
        extLeft a b alo blo fuel ⟨st.besti - 1, st.bestj - 1, st.bestsize + 1⟩
      else st

/-- Second extension loop: grow the best block to the right; it runs at
most `ahi - (besti + bestsize)` times, which is the fuel. -/
def extRight (a b : List Char) (ahi bhi : Nat) : Nat → FBest → FBest
  | 0, st => st
  | fuel + 1, st =>
      if st.besti + st.bestsize < ahi ∧ st.bestj + st.bestsize < bhi ∧
          a.getD (st.besti + st.bestsize) ' ' = b.getD (st.bestj + st.bestsize) ' ' then
        extRight a b ahi bhi fuel ⟨st.besti, st.bestj, st.bestsize + 1⟩
      else st

/-- Function `find_longest_match` on the window `[alo, ahi) × [blo, bhi)`. -/
def flm (a b : List Char) (alo ahi blo bhi : Nat) : FBest :=
  let st := flmLoop a b blo bhi (List.range' alo (ahi - alo)) (fun _ => 0)
    ⟨alo, blo, 0⟩
  let st := extLeft a b alo blo st.besti st
  extRight a b ahi bhi (ahi - (st.besti + st.bestsize)) st

/-- Bounds invariant for a candidate block: when non-empty it lies inside
`[alo, ihi) × [blo, bhi)`. -/
def BestOK (alo ihi blo bhi : Nat) (st : FBest) : Prop :=
  st.bestsize ≠ 0 → alo ≤ st.besti ∧ st.besti + st.bestsize ≤ ihi ∧
    blo ≤ st.bestj ∧ st.bestj + st.bestsize ≤ bhi

/-- Bounds invariant for the suffix-length dictionary after the outer loop
has processed all indices below `iBound`. -/
def J2OK (alo blo bhi iBound : Nat) (f : Nat → Nat) : Prop :=
  ∀ j, f j ≠ 0 → blo ≤ j ∧ j < bhi ∧ f j + blo ≤ j + 1 ∧ f j + alo ≤ iBound

/-- Total matched size over `get_matching_blocks`: the recursion mirrors
the worklist that splits the window around each longest match (merging of
adjacent blocks does not change the sum).  The window width `ahi - alo`
strictly decreases on both recursive calls, so fuel `ahi - alo` at the top
makes the fuel-free recursion total. -/
def mtF (a b : List Char) : Nat → Nat → Nat → Nat → Nat → Nat
  | 0, _, _, _, _ => 0
  | fuel + 1, alo, ahi, blo, bhi =>
      let st := flm a b alo ahi blo bhi
      if st.bestsize = 0 then 0
      else
        st.bestsize
          + (if alo < st.besti ∧ blo < st.bestj then
               mtF a b fuel alo st.besti blo st.bestj else 0)
          + (if st.besti + st.bestsize < ahi ∧ st.bestj + st.bestsize < bhi then
               mtF a b fuel (st.besti + st.bestsize) ahi (st.bestj + st.bestsize) bhi
             else 0)

/-- The total `sum(triple[-1] for triple in get_matching_blocks())`. -/
def seqMatches (a b : List Char) : Nat :=
  mtF a b a.length 0 a.length 0 b.length

/-- Method `SequenceMatcher.ratio()`: `2*M/T`, and 1 when both strings are empty. -/
def seqScore (s1 s2 : String) : ℚ :=
  let a := s1.data
  let b := s2.data
  if a.length + b.length = 0 then 1
  else 2 * (seqMatches a b : ℚ) / ((a.length : ℚ) + (b.length : ℚ))

/-! ### Similarity scorer (`calculate_similarity`) and classifier -/

/-- Python's `small in big` substring test on the normalized names. -/
def hasSubstr (small big : List Char) : Bool :=
  (List.range (big.length + 1)).any (fun k => small.isPrefixOf (big.drop k))

/-- The `if parts1 and parts2:` block of `calculate_similarity`: the pair
(jaccard, word_match_score), both 0 when either word-part set is empty;
inside, jaccard guards on a non-empty union and word_match_score on a
positive minimum cardinality exactly as the Python conditionals do. -/
def jaccardWordMatch (parts1 parts2 : Finset String) : ℚ × ℚ :=
  if parts1.Nonempty ∧ parts2.Nonempty then
    (if (parts1 ∪ parts2).Nonempty then
        ((parts1 ∩ parts2).card : ℚ) / ((parts1 ∪ parts2).card : ℚ)
      else 0,
     if 0 < min parts1.card parts2.card then
        ((parts1 ∩ parts2).card : ℚ) / ((min parts1.card parts2.card : ℕ) : ℚ)
      else 0)
  else (0, 0)

/-- The function `calculate_similarity`: normalization, the empty and exact short
circuits, then the weighted blend of the four signals, clamped at 1.
Python's word-part sets are `Finset String`. -/
def calculate_similarity (name1 name2 : String) : ℚ :=
  let norm1 := normalize_customer_name name1
  let norm2 := normalize_customer_name name2
  if norm1 = "" ∨ norm2 = "" then 0
  else if norm1 = norm2 then 1
  else
    let seq_score := seqScore norm1 norm2
    let parts1 := (extract_name_parts name1).toFinset
    let parts2 := (extract_name_parts name2).toFinset
    let jw := jaccardWordMatch parts1 parts2
    let substring_score : ℚ :=
      if hasSubstr norm1.data norm2.data || hasSubstr norm2.data norm1.data then
        (3 : ℚ)/10
      else 0
    let final_score :=
      seq_score * ((4 : ℚ)/10) + jw.1 * ((3 : ℚ)/10) + jw.2 * ((2 : ℚ)/10)
        + substring_score * ((1 : ℚ)/10)
    -- min(final_score, 1.0), spelled as the conditional it denotes
    if final_score ≤ 1 then final_score else 1

/-- The function `classify_match`. -/
def classify_match (score : ℚ) : String :=
  if (95 : ℚ)/100 ≤ score then "exact"
  else if (7 : ℚ)/10 ≤ score then "high"
  else if (1 : ℚ)/2 ≤ score then "medium"
  else "low"

/-! ### Match finder (`find_customer_matches`) -/

/-- One row of the customer DataFrames (`customer_id`, `customer_name`);
a missing name (`row['customer_name'] or ''`) is the empty string. -/
structure CustRow where
  customer_id : String
  customer_name : String
deriving DecidableEq

structure CustomerMatch where
  xero_customer_id : String
  xero_customer_name : String
  historical_customer_id : String
  historical_customer_name : String
  similarity_score : ℚ
  match_type : String
deriving DecidableEq

/-- The inner loop over historical rows for one Xero row, carrying
`best_score` (initially the integer 0) and `best_match` (initially None). -/
def innerBest (xid xname : String) (min_score : ℚ) :
    List CustRow → (ℚ × Option CustomerMatch) → ℚ × Option CustomerMatch
  | [], acc => acc
  | h :: hs, (bestScore, bestMatch) =>
      if h.customer_name = "" ∨ h.customer_id = xid then
        innerBest xid xname min_score hs (bestScore, bestMatch)
      else
        let score := calculate_similarity xname h.customer_name
        if min_score ≤ score ∧ bestScore < score then
          innerBest xid xname min_score hs
            (score, some ⟨xid, xname, h.customer_id, h.customer_name, score,
                          classify_match score⟩)
        else innerBest xid xname min_score hs (bestScore, bestMatch)

/-- The outer loop: one optional best match per Xero row with a non-empty
name. -/
def collectMatches (hist : List CustRow) (min_score : ℚ) :
    List CustRow → List CustomerMatch
  | [] => []
  | x :: xs =>
      if x.customer_name = "" then collectMatches hist min_score xs
      else
        match (innerBest x.customer_id x.customer_name min_score hist (0, none)).2 with
        | none => collectMatches hist min_score xs
        | some m => m :: collectMatches hist min_score xs

/-- Order used by `matches.sort(key=..., reverse=True)`. -/
def scoreGE (m1 m2 : CustomerMatch) : Prop :=
  m2.similarity_score ≤ m1.similarity_score

instance : DecidableRel scoreGE :=
  fun _ _ => inferInstanceAs (Decidable (_ ≤ _))

instance : IsTotal CustomerMatch scoreGE :=
  ⟨fun a b => le_total b.similarity_score a.similarity_score⟩

instance : IsTrans CustomerMatch scoreGE :=
  ⟨fun _ _ _ h1 h2 => le_trans h2 h1⟩

/-- The function `find_customer_matches`: collect the per-row best matches, then a
stable sort by descending similarity score. -/
def find_customer_matches (xero hist : List CustRow) (min_score : ℚ) :
    List CustomerMatch :=
  List.insertionSort scoreGE (collectMatches hist min_score xero)

/-! ### Warehouse state and the merge / archive / restore operations

The relational store is a record of row lists; `archived` is a nullable
boolean and `invoice_date` a nullable date (an integer), with the SQL
comparison `invoice_date >= cutoff` false on NULL.  Each operation is a
function from the state to the Python return value paired with the new
state; rowcounts follow PostgreSQL, counting the rows matched by the
UPDATE even when the written values equal the old ones. -/

structure Customer where
  customer_id : String
  customer_name : String
  archived : Option Bool
  merged_into : Option String
deriving DecidableEq

structure Product where
  product_id : Int
  item_name : String
  archived : Option Bool
deriving DecidableEq

structure Invoice where
  customer_id : String
  invoice_date : Option Int
deriving DecidableEq

structure SalesLine where
  customer_id : String
  product_id : Int
  invoice_date : Option Int
deriving DecidableEq

structure DBState where
  customers : List Customer
  products : List Product
  invoices : List Invoice
  sales_lines : List SalesLine
deriving DecidableEq

/-- SQL `invoice_date >= cutoff` (false when the date is NULL). -/
def dateGE (d : Option Int) (cutoff : Int) : Bool :=
  match d with
  | none => false
  | some x => cutoff ≤ x

/-- The function `merge_customers`: re-point `fct_invoice` and `fct_sales_line` rows
from source to target, mark the source customer merged and archived, and
return the number of transactional rows matched by the two updates. -/
def merge_customers (st : DBState) (source_id target_id : String) :
    Nat × DBState :=
  let n1 := st.invoices.countP (fun i => i.customer_id = source_id)
  let n2 := st.sales_lines.countP (fun s => s.customer_id = source_id)
  (n1 + n2,
   { st with
      invoices := st.invoices.map (fun i =>
        if i.customer_id = source_id then { i with customer_id := target_id } else i),
      sales_lines := st.sales_lines.map (fun s =>
        if s.customer_id = source_id then { s with customer_id := target_id } else s),
      customers := st.customers.map (fun c =>
        if c.customer_id = source_id then
          { c with merged_into := some target_id, archived := some true }
        else c) })

/-- The function `archive_customers_by_date`: archive currently-unarchived customers
with no invoice or sales-line activity at or after the cutoff; the WHERE
clause is evaluated on the pre-update state. -/
def archive_customers_by_date (st : DBState) (before_date : Int) :
    Nat × DBState :=
  let cond := fun (c : Customer) =>
    (c.archived = some false ∨ c.archived = none) ∧
    (¬ ∃ i ∈ st.invoices, i.customer_id = c.customer_id ∧
        dateGE i.invoice_date before_date = true) ∧
    (¬ ∃ s ∈ st.sales_lines, s.customer_id = c.customer_id ∧
        dateGE s.invoice_date before_date = true)
  (st.customers.countP (fun c => decide (cond c)),
   { st with customers := st.customers.map (fun c =>
      if cond c then { c with archived := some true } else c) })

/-- The function `archive_products_by_date`. -/
def archive_products_by_date (st : DBState) (before_date : Int) :
    Nat × DBState :=
  let cond := fun (p : Product) =>
    (p.archived = some false ∨ p.archived = none) ∧
    (¬ ∃ s ∈ st.sales_lines, s.product_id = p.product_id ∧
        dateGE s.invoice_date before_date = true)
  (st.products.countP (fun p => decide (cond p)),
   { st with products := st.products.map (fun p =>
      if cond p then { p with archived := some true } else p) })

/-- The function `get_archive_preview`: the two read-only COUNT queries; the state is
returned unchanged (the function only issues SELECTs). -/
def get_archive_preview (st : DBState) (before_date : Int) :
    (Nat × Nat) × DBState :=
  ((st.customers.countP (fun c => decide (
      (c.archived = some false ∨ c.archived = none) ∧
      (¬ ∃ i ∈ st.invoices, i.customer_id = c.customer_id ∧
          dateGE i.invoice_date before_date = true) ∧
      (¬ ∃ s ∈ st.sales_lines, s.customer_id = c.customer_id ∧
          dateGE s.invoice_date before_date = true))),
    st.products.countP (fun p => decide (
      (p.archived = some false ∨ p.archived = none) ∧
      (¬ ∃ s ∈ st.sales_lines, s.product_id = p.product_id ∧
          dateGE s.invoice_date before_date = true)))),
   st)

/-- The function `archive_customers_by_ids`: `customer_id = ANY(ids)`; the empty list is
an explicit no-op returning 0. -/
def archive_customers_by_ids (st : DBState) (customer_ids : List String) :
    Nat × DBState :=
  if customer_ids = [] then (0, st)
  else
    (st.customers.countP (fun c => decide (c.customer_id ∈ customer_ids)),
     { st with customers := st.customers.map (fun c =>
        if c.customer_id ∈ customer_ids then { c with archived := some true } else c) })

/-- The function `unarchive_customer`: returns `rowcount > 0`. -/
def unarchive_customer (st : DBState) (customer_id : String) :
    Bool × DBState :=
  (decide (0 < st.customers.countP (fun c => c.customer_id = customer_id)),
   { st with customers := st.customers.map (fun c =>
      if c.customer_id = customer_id then { c with archived := some false } else c) })

/-- The function `unarchive_product`: returns `rowcount > 0`. -/
def unarchive_product (st : DBState) (product_id : Int) :
    Bool × DBState :=
  (decide (0 < st.products.countP (fun p => p.product_id = product_id)),
   { st with products := st.products.map (fun p =>
      if p.product_id = product_id then { p with archived := some false } else p) })

/-- The data-model invariant of the spec: a customer with `merged_into` set
has `archived = true`. -/
def MergedArchivedInv (st : DBState) : Prop :=
  ∀ c ∈ st.customers, c.merged_into ≠ none → c.archived = some true

instance (st : DBState) : Decidable (MergedArchivedInv st) :=
  inferInstanceAs (Decidable (∀ c ∈ st.customers, _))

/-- C2 counterexample state: one invoice referencing customer "a". -/
def stC2 : DBState :=
  ⟨[], [], [⟨"a", some 5⟩], []⟩

/-- C2 witness state: one invoice referencing customer "a". -/
def stW2 : DBState :=
  ⟨[], [], [⟨"a", some 5⟩], []⟩

/-- C8 counterexample state: customer "c" exists and is already
unarchived. -/
def stC8 : DBState :=
  ⟨[⟨"c", "C", some false, none⟩], [], [], []⟩

/-- C1 state: two active customers and one invoice for "s"; merging "s"
into "t" and then unarchiving "s" is a run of core operations. -/
def stC1 : DBState :=
  ⟨[⟨"s", "S", some false, none⟩, ⟨"t", "T", some false, none⟩], [],
   [⟨"s", some 1⟩], []⟩

/-- Concrete finder inputs for the C3 witness. -/
def xsW3 : List CustRow := [⟨"x", "ab"⟩]

def hsW3 : List CustRow := [⟨"h", "ab"⟩]

/-- The single match produced on `xsW3`/`hsW3`. -/
def mW3 : CustomerMatch := ⟨"x", "ab", "h", "ab", 1, "exact"⟩

/-- Concrete finder inputs for the C10 witness. -/
def xsW10 : List CustRow := [⟨"u", "cd"⟩]

def hsW10 : List CustRow := [⟨"k", "cd"⟩]

/-- The single match produced on `xsW10`/`hsW10`. -/
def mW10 : CustomerMatch := ⟨"u", "cd", "k", "cd", 1, "exact"⟩

/-! ### Lemmas about the state operations -/

/-- A list is unchanged by a map that fixes all its members. -/
lemma map_eq_self_of_mem {α : Type} {f : α → α} {l : List α}
    (h : ∀ x ∈ l, f x = x) : l.map f = l := by
  induction l with
  | nil => rfl
  | cons a l ih =>
      simp only [List.map_cons, h a (List.mem_cons_self a l),
        ih (fun x hx => h x (List.mem_cons_of_mem a hx))]

/-- After a merge, no invoice references the source id (source ≠ target). -/
lemma merge_invoices_ne (st : DBState) (s t : String) (hne : s ≠ t) :
    ∀ i ∈ (merge_customers st s t).2.invoices, i.customer_id ≠ s := by
  intro i hi
  simp only [merge_customers, List.mem_map] at hi
  obtain ⟨i0, _, rfl⟩ := hi
  by_cases h : i0.customer_id = s
  · simp [h, hne.symm]
  · simp [h]

/-- After a merge, no sales line references the source id. -/
lemma merge_sales_ne (st : DBState) (s t : String) (hne : s ≠ t) :
    ∀ x ∈ (merge_customers st s t).2.sales_lines, x.customer_id ≠ s := by
  intro x hx
  simp only [merge_customers, List.mem_map] at hx
  obtain ⟨x0, _, rfl⟩ := hx
  by_cases h : x0.customer_id = s
  · simp [h, hne.symm]
  · simp [h]

/-- After a merge, every customer row carrying the source id is already
marked merged-into-target and archived. -/
lemma merge_customers_marked (st : DBState) (s t : String) :
    ∀ c ∈ (merge_customers st s t).2.customers, c.customer_id = s →
      c.merged_into = some t ∧ c.archived = some true := by
  intro c hc hcs
  simp only [merge_customers, List.mem_map] at hc
  obtain ⟨c0, _, rfl⟩ := hc
  by_cases h : c0.customer_id = s
  · simp [h]
  · simp only [if_neg h] at hcs ⊢
    exact absurd hcs h

end DataMgmt

namespace DataMgmt

/-- C7.  On any database state, the customer and product counts returned by
`get_archive_preview` equal the number of rows `archive_customers_by_date`
and `archive_products_by_date` would archive on that same state, and the
preview leaves the state unchanged. -/
theorem c7_preview_agrees_with_archive (st : DBState) (before_date : Int) :
    (get_archive_preview st before_date).2 = st ∧
    (get_archive_preview st before_date).1.1 =
      (archive_customers_by_date st before_date).1 ∧
    (get_archive_preview st before_date).1.2 =
      (archive_products_by_date st before_date).1 :=
  ⟨rfl, rfl, rfl⟩

/-- C8 counterexample.  `unarchive_customer` on an existing customer whose
`archived` is already false returns true although no row's archived state
changes (the state is untouched), refuting "true if and only if a row's
archived state was actually changed". -/
theorem c8_cex_true_without_change :
    (unarchive_customer stC8 "c").1 = true ∧
    (unarchive_customer stC8 "c").2 = stC8 := by
  decide

/-- C8 (amended).  `unarchive_customer` / `unarchive_product` set
`archived = false` on every row with the given id and return true if and
only if such a row exists (in particular false when the id is not found);
the returned flag does not record whether a value actually changed. -/
theorem c8_unarchive_amended (st : DBState) (cid : String) (pid : Int) :
    ((unarchive_customer st cid).1 = true ↔
      ∃ c ∈ st.customers, c.customer_id = cid) ∧
    (∀ c ∈ (unarchive_customer st cid).2.customers,
      c.customer_id = cid → c.archived = some false) ∧
    ((unarchive_product st pid).1 = true ↔
      ∃ p ∈ st.products, p.product_id = pid) ∧
    (∀ p ∈ (unarchive_product st pid).2.products,
      p.product_id = pid → p.archived = some false) := by
  refine ⟨?_, ?_, ?_, ?_⟩
  · simp [unarchive_customer, List.countP_pos_iff]
  · intro c hc hcid
    simp only [unarchive_customer, List.mem_map] at hc
    obtain ⟨c0, _, rfl⟩ := hc
    by_cases h : c0.customer_id = cid
    · simp [h]
    · simp only [if_neg h] at hcid ⊢
      exact absurd hcid h
  · simp [unarchive_product, List.countP_pos_iff]
  · intro p hp hpid
    simp only [unarchive_product, List.mem_map] at hp
    obtain ⟨p0, _, rfl⟩ := hp
    by_cases h : p0.product_id = pid
    · simp [h]
    · simp only [if_neg h] at hpid ⊢
      exact absurd hpid h

/-- C8 witness: the amended characterization applied to a concrete state
with one archived customer and an absent product id. -/
theorem c8_unarchive_amended_witness :
    ((unarchive_customer ⟨[⟨"c", "C", some true, none⟩], [], [], []⟩ "c").1 = true ↔
      ∃ c ∈ [(⟨"c", "C", some true, none⟩ : Customer)], c.customer_id = "c") ∧
    (∀ c ∈ (unarchive_customer ⟨[⟨"c", "C", some true, none⟩], [], [], []⟩ "c").2.customers,
      c.customer_id = "c" → c.archived = some false) ∧
    ((unarchive_product ⟨[⟨"c", "C", some true, none⟩], [], [], []⟩ 7).1 = true ↔
      ∃ p ∈ ([] : List Product), p.product_id = 7) ∧
    (∀ p ∈ (unarchive_product ⟨[⟨"c", "C", some true, none⟩], [], [], []⟩ 7).2.products,
      p.product_id = 7 → p.archived = some false) :=
  c8_unarchive_amended ⟨[⟨"c", "C", some true, none⟩], [], [], []⟩ "c" 7

/-- C1 counterexample.  Starting from an invariant-satisfying state, a
merge followed by `unarchive_customer` on the merged source yields a
reachable state whose source customer has `merged_into` set and
`archived = false`: the invariant is not preserved by `unarchive_customer`. -/
theorem c1_cex_unarchive_breaks_invariant :
    MergedArchivedInv stC1 ∧
    MergedArchivedInv (merge_customers stC1 "s" "t").2 ∧
    ¬ MergedArchivedInv
        (unarchive_customer (merge_customers stC1 "s" "t").2 "s").2 := by
  decide

/-- C1 (amended).  The invariant "a customer with `merged_into` set has
`archived = true`" is preserved by `merge_customers`,
`archive_customers_by_ids` and `archive_customers_by_date`;
`unarchive_customer` preserves it only when every customer row with the
given id has `merged_into` unset — unarchiving a merged customer leaves
`merged_into` set with `archived = false`. -/
theorem c1_invariant_amended (st : DBState) (s t : String) (ids : List String)
    (d : Int) (uid : String) (hinv : MergedArchivedInv st) :
    MergedArchivedInv (merge_customers st s t).2 ∧
    MergedArchivedInv (archive_customers_by_ids st ids).2 ∧
    MergedArchivedInv (archive_customers_by_date st d).2 ∧
    ((∀ c ∈ st.customers, c.customer_id = uid → c.merged_into = none) →
      MergedArchivedInv (unarchive_customer st uid).2) := by
  refine ⟨?_, ?_, ?_, ?_⟩
  · intro c hc hm
    simp only [merge_customers, List.mem_map] at hc
    obtain ⟨c0, hc0, rfl⟩ := hc
    by_cases h : c0.customer_id = s
    · simp [h]
    · simp only [if_neg h] at hm ⊢
      exact hinv c0 hc0 hm
  · intro c hc hm
    simp only [archive_customers_by_ids] at hc
    by_cases hids : ids = []
    · simp only [if_pos hids] at hc
      exact hinv c hc hm
    · simp only [if_neg hids, List.mem_map] at hc
      obtain ⟨c0, hc0, rfl⟩ := hc
      by_cases h : c0.customer_id ∈ ids
      · simp [h]
      · simp only [if_neg h] at hm ⊢
        exact hinv c0 hc0 hm
  · intro c hc hm
    simp only [archive_customers_by_date, List.mem_map] at hc
    obtain ⟨c0, hc0, rfl⟩ := hc
    by_cases h : (c0.archived = some false ∨ c0.archived = none) ∧
        (¬ ∃ i ∈ st.invoices, i.customer_id = c0.customer_id ∧
            dateGE i.invoice_date d = true) ∧
        (¬ ∃ x ∈ st.sales_lines, x.customer_id = c0.customer_id ∧
            dateGE x.invoice_date d = true)
    · rw [if_pos h]
    · rw [if_neg h] at hm ⊢
      exact hinv c0 hc0 hm
  · intro hnone c hc hm
    simp only [unarchive_customer, List.mem_map] at hc
    obtain ⟨c0, hc0, rfl⟩ := hc
    by_cases h : c0.customer_id = uid
    · exact absurd (hnone c0 hc0 h) (by simpa [h] using hm)
    · simp only [if_neg h] at hm ⊢
      exact hinv c0 hc0 hm

/-- C1 witness: the amended preservation applied to a concrete
invariant-satisfying state. -/
theorem c1_invariant_amended_witness :
    MergedArchivedInv (merge_customers stC1 "s" "t").2 ∧
    MergedArchivedInv (archive_customers_by_ids stC1 ["s"]).2 ∧
    MergedArchivedInv (archive_customers_by_date stC1 0).2 ∧
    ((∀ c ∈ stC1.customers, c.customer_id = "s" → c.merged_into = none) →
      MergedArchivedInv (unarchive_customer stC1 "s").2) :=
  c1_invariant_amended stC1 "s" "t" ["s"] 0 "s" (by decide)

/-- C2 counterexample.  With one invoice referencing "a", the self-merge
`merge_customers(st, "a", "a")` returns a positive count, and immediately
re-invoking it with the same arguments returns the same positive count
instead of 0: the claim fails without a source ≠ target precondition. -/
theorem c2_cex_self_merge :
    0 < (merge_customers stC2 "a" "a").1 ∧
    (merge_customers (merge_customers stC2 "a" "a").2 "a" "a").1 ≠ 0 := by
  decide

/-- C2 (amended).  Provided source ≠ target: if some transactional row
references the source, the first merge returns a positive count, the
immediate re-invocation returns 0 and leaves the state unchanged, and no
transactional row references the source after the first call. -/
theorem c2_merge_idempotent_amended (st : DBState) (s t : String)
    (hne : s ≠ t)
    (hrow : (∃ i ∈ st.invoices, i.customer_id = s) ∨
            (∃ x ∈ st.sales_lines, x.customer_id = s)) :
    0 < (merge_customers st s t).1 ∧
    merge_customers (merge_customers st s t).2 s t =
      (0, (merge_customers st s t).2) ∧
    (∀ i ∈ (merge_customers st s t).2.invoices, i.customer_id ≠ s) ∧
    (∀ x ∈ (merge_customers st s t).2.sales_lines, x.customer_id ≠ s) := by
  have hinv := merge_invoices_ne st s t hne
  have hsal := merge_sales_ne st s t hne
  refine ⟨?_, ?_, hinv, hsal⟩
  · rcases hrow with ⟨i, hi, his⟩ | ⟨x, hx, hxs⟩
    · have : 0 < (merge_customers st s t).2.invoices.length + 1 := Nat.succ_pos _
      have hpos : 0 < st.invoices.countP (fun i => i.customer_id = s) :=
        List.countP_pos_iff.mpr ⟨i, hi, by simp [his]⟩
      simp only [merge_customers]
      omega
    · have hpos : 0 < st.sales_lines.countP (fun x => x.customer_id = s) :=
        List.countP_pos_iff.mpr ⟨x, hx, by simp [hxs]⟩
      simp only [merge_customers]
      omega
  · have h1 : (merge_customers st s t).2.invoices.countP
        (fun i => i.customer_id = s) = 0 :=
      List.countP_eq_zero.mpr (fun i hi => by simpa using hinv i hi)
    have h2 : (merge_customers st s t).2.sales_lines.countP
        (fun x => x.customer_id = s) = 0 :=
      List.countP_eq_zero.mpr (fun x hx => by simpa using hsal x hx)
    have hmapi : (merge_customers st s t).2.invoices.map (fun i =>
        if i.customer_id = s then { i with customer_id := t } else i) =
        (merge_customers st s t).2.invoices :=
      map_eq_self_of_mem (fun i hi => if_neg (hinv i hi))
    have hmaps : (merge_customers st s t).2.sales_lines.map (fun x =>
        if x.customer_id = s then { x with customer_id := t } else x) =
        (merge_customers st s t).2.sales_lines :=
      map_eq_self_of_mem (fun x hx => if_neg (hsal x hx))
    have hmapc : (merge_customers st s t).2.customers.map (fun c =>
        if c.customer_id = s then
          { c with merged_into := some t, archived := some true }
        else c) = (merge_customers st s t).2.customers := by
      refine map_eq_self_of_mem (fun c hc => ?_)
      by_cases h : c.customer_id = s
      · obtain ⟨hm, ha⟩ := merge_customers_marked st s t c hc h
        cases c
        simp_all
      · exact if_neg h
    show (_, _) = (_, _)
    rw [Prod.mk.injEq]
    constructor
    · show (merge_customers st s t).2.invoices.countP _ +
        (merge_customers st s t).2.sales_lines.countP _ = 0
      omega
    · show DBState.mk _ _ _ _ = _
      rw [hmapc, hmapi, hmaps]

/-- C2 witness: the amended merge idempotence applied to a concrete state
with one invoice referencing the source. -/
theorem c2_merge_idempotent_amended_witness :
    0 < (merge_customers stW2 "a" "b").1 ∧
    merge_customers (merge_customers stW2 "a" "b").2 "a" "b" =
      (0, (merge_customers stW2 "a" "b").2) ∧
    (∀ i ∈ (merge_customers stW2 "a" "b").2.invoices, i.customer_id ≠ "a") ∧
    (∀ x ∈ (merge_customers stW2 "a" "b").2.sales_lines, x.customer_id ≠ "a") :=
  c2_merge_idempotent_amended stW2 "a" "b" (by decide)
    (Or.inl ⟨⟨"a", some 5⟩, by decide, rfl⟩)

/-! ### Canonical form of normalized names (towards C4) -/

lemma char_le_toNat {c d : Char} (h : d ≤ c) : d.val.toNat ≤ c.val.toNat := by
  rw [Char.le_def, UInt32.le_def, BitVec.le_def] at h
  exact h

/-- The six whitespace characters, as an enumeration. -/
lemma isPySpace_cases {c : Char} (h : isPySpace c = true) :
    c = ' ' ∨ c = '\t' ∨ c = '\n' ∨ c = '\r' ∨ c = '\x0b' ∨ c = '\x0c' := by
  simp only [isPySpace, Bool.or_eq_true, decide_eq_true_eq] at h
  tauto

/-- The five separator characters, as an enumeration. -/
lemma isSepChar_cases {c : Char} (h : isSepChar c = true) :
    c = ':' ∨ c = '-' ∨ c = '_' ∨ c = '/' ∨ c = '\\' := by
  simp only [isSepChar, Bool.or_eq_true, decide_eq_true_eq] at h
  tauto

/-- A good character is not whitespace. -/
lemma good_not_space {c : Char} (h : goodChar c = true) : isPySpace c = false := by
  by_contra hsp
  rw [Bool.not_eq_false] at hsp
  rcases isPySpace_cases hsp with rfl | rfl | rfl | rfl | rfl | rfl <;>
    simp [goodChar, isLowerAZ, isAsciiDigitC] at h

/-- A good character is not a separator. -/
lemma good_not_sep {c : Char} (h : goodChar c = true) : isSepChar c = false := by
  by_contra hsp
  rw [Bool.not_eq_false] at hsp
  rcases isSepChar_cases hsp with rfl | rfl | rfl | rfl | rfl <;>
    simp [goodChar, isLowerAZ, isAsciiDigitC] at h

lemma good_keep {c : Char} (h : goodChar c = true) : keepChar c = true := by
  simp only [goodChar, Bool.or_eq_true] at h
  simp only [keepChar, Bool.or_eq_true]
  tauto

lemma keep_not_space_good {c : Char} (hk : keepChar c = true)
    (hs : isPySpace c = false) : goodChar c = true := by
  simp only [keepChar, Bool.or_eq_true] at hk
  simp only [goodChar, Bool.or_eq_true]
  rcases hk with h | h
  · exact h
  · rw [h] at hs
    exact absurd hs (by simp)

/-- Core `Char.toLower` fixes good characters (they are outside A-Z). -/
lemma good_toLower {c : Char} (h : goodChar c = true) : c.toLower = c := by
  simp only [goodChar, Bool.or_eq_true] at h
  unfold Char.toLower
  rw [if_neg]
  intro hc
  obtain ⟨hc1, hc2⟩ := hc
  unfold Char.toNat at hc1 hc2
  rcases h with h | h
  · simp only [isLowerAZ, Bool.and_eq_true, decide_eq_true_eq] at h
    have t1 := char_le_toNat h.1
    have t2 := char_le_toNat h.2
    have e1 : ('a' : Char).val.toNat = 97 := rfl
    have e2 : ('z' : Char).val.toNat = 122 := rfl
    omega
  · simp only [isAsciiDigitC, Bool.and_eq_true, decide_eq_true_eq] at h
    have t1 := char_le_toNat h.1
    have t2 := char_le_toNat h.2
    have e1 : ('0' : Char).val.toNat = 48 := rfl
    have e2 : ('9' : Char).val.toNat = 57 := rfl
    omega

/-- Core `Char.toLower` fixes whitespace. -/
lemma space_toLower {c : Char} (h : isPySpace c = true) : c.toLower = c := by
  rcases isPySpace_cases h with rfl | rfl | rfl | rfl | rfl | rfl <;> decide

/-- Every character of the space-joined good words is good or a space. -/
lemma joinSp_chars {ws : List (List Char)} (h : GoodWords ws) :
    ∀ c ∈ joinSp ws, goodChar c = true ∨ c = ' ' := by
  induction ws with
  | nil => intro c hc; simp [joinSp] at hc
  | cons w ws ih =>
      intro c hc
      cases ws with
      | nil =>
          exact Or.inl ((h w (by simp)).2 c (by simpa [joinSp] using hc))
      | cons w' ws' =>
          simp only [joinSp, List.mem_append, List.mem_cons] at hc
          rcases hc with hc | rfl | hc
          · exact Or.inl ((h w (by simp)).2 c hc)
          · exact Or.inr rfl
          · exact ih (fun u hu => h u (List.mem_cons_of_mem w hu)) c
              (by simpa [joinSp] using hc)

/-- All words produced by `str.split()` from keepable characters are good;
the accumulator holds only good characters. -/
lemma wordsAux_good : ∀ (s cur : List Char), (∀ c ∈ s, keepChar c = true) →
    (∀ c ∈ cur, goodChar c = true) → GoodWords (wordsAux cur s) := by
  intro s
  induction s with
  | nil =>
      intro cur _ hcur w hw
      simp only [wordsAux] at hw
      by_cases hc : cur.isEmpty
      · simp [hc] at hw
      · simp only [if_neg hc, List.mem_singleton] at hw
        subst hw
        refine ⟨by simpa [List.isEmpty_iff] using hc, fun c hcw => ?_⟩
        exact hcur c (by simpa using hcw)
  | cons a s ih =>
      intro cur hs hcur w hw
      simp only [wordsAux] at hw
      by_cases hsp : isPySpace a
      · rw [if_pos hsp] at hw
        by_cases hc : cur.isEmpty
        · rw [if_pos hc] at hw
          exact ih [] (fun c hcs => hs c (List.mem_cons_of_mem a hcs)) (by simp) w hw
        · rw [if_neg hc] at hw
          rcases List.mem_cons.mp hw with rfl | hw
          · refine ⟨by simpa [List.isEmpty_iff] using hc, fun c hcw => ?_⟩
            exact hcur c (by simpa using hcw)
          · exact ih [] (fun c hcs => hs c (List.mem_cons_of_mem a hcs)) (by simp) w hw
      · rw [if_neg hsp] at hw
        refine ih (a :: cur) (fun c hcs => hs c (List.mem_cons_of_mem a hcs))
          (fun c hcc => ?_) w hw
        rcases List.mem_cons.mp hcc with rfl | hcc
        · exact keep_not_space_good (hs c (List.mem_cons_self c s))
            (by simpa using hsp)
        · exact hcur c hcc

/-- A `dropLit` success removes exactly by removing the literal from the front. -/
lemma dropLit_eq : ∀ (p s r : List Char), dropLit p s = some r → s = p ++ r := by
  intro p
  induction p with
  | nil => intro s r h; simpa [dropLit] using (by simpa [dropLit] using h : s = r)
  | cons a p ih =>
      intro s r h
      cases s with
      | nil => simp [dropLit] at h
      | cons b s =>
          simp only [dropLit] at h
          by_cases hb : b = a
          · rw [if_pos hb] at h
            rw [List.cons_append, ← ih s r h, hb]
          · rw [if_neg hb] at h
            exact absurd h (by simp)

/-- The head surviving `dropWhile` falsifies the predicate. -/
lemma dropWhile_head_false (p : Char → Bool) :
    ∀ (l : List Char) (c : Char) (r : List Char),
      l.dropWhile p = c :: r → p c = false := by
  intro l
  induction l with
  | nil => intro c r h; simp [List.dropWhile] at h
  | cons a l ih =>
      intro c r h
      rw [List.dropWhile_cons] at h
      by_cases ha : p a
      · exact ih c r (by rwa [if_pos ha] at h)
      · rw [if_neg ha] at h
        obtain ⟨rfl, -⟩ := List.cons.injEq .. ▸ h
        injection h with h1 _
        rw [← h1]
        exact Bool.not_eq_true _ ▸ ha

/-- On a string whose characters are good or spaces, the local/export
pattern cannot match: after the literal and the spaces, the character `-`
is required but cannot occur. -/
lemma matchKwNum_none (kw : List Char) {s : List Char}
    (h : ∀ c ∈ s, goodChar c = true ∨ c = ' ') : matchKwNum kw s = none := by
  unfold matchKwNum
  cases hdl : dropLit kw s with
  | none => rfl
  | some r =>
      have hr : ∀ c ∈ r, goodChar c = true ∨ c = ' ' := by
        intro c hc
        exact h c (dropLit_eq kw s r hdl ▸ List.mem_append_right kw hc)
      simp only [Option.bind_eq_bind, Option.some_bind]
      cases hdw : r.dropWhile isPySpace with
      | nil => simp [expectChar]
      | cons c1 r2 =>
          have hc1r : c1 ∈ r :=
            (List.dropWhile_sublist isPySpace).subset (hdw ▸ List.mem_cons_self c1 r2)
          have hc1 : goodChar c1 = true := by
            rcases hr c1 hc1r with hg | rfl
            · exact hg
            · exact absurd (dropWhile_head_false isPySpace r _ _ hdw) (by simp [isPySpace])
          have : c1 ≠ '-' := by
            rintro rfl
            simp [goodChar, isLowerAZ, isAsciiDigitC] at hc1
          simp [hdw, expectChar, this]

/-- On a string whose characters are good or spaces and that does not begin
with "the ", the `^the\s+` pattern cannot match. -/
lemma matchTheKw_none {s : List Char}
    (hgood : ∀ c ∈ s, goodChar c = true ∨ c = ' ')
    (h : ¬ ∃ u, s = 't' :: 'h' :: 'e' :: ' ' :: u) : matchTheKw s = none := by
  unfold matchTheKw
  cases hdl : dropLit ['t', 'h', 'e'] s with
  | none => rfl
  | some r =>
      have hs : s = 't' :: 'h' :: 'e' :: r := dropLit_eq _ s r hdl
      simp only [Option.bind_eq_bind, Option.some_bind]
      cases r with
      | nil => simp [List.takeWhile]
      | cons c1 r2 =>
          rw [List.takeWhile_cons]
          by_cases hsp : isPySpace c1
          · have hc1 : goodChar c1 = true ∨ c1 = ' ' := by
              refine hgood c1 (hs ▸ ?_)
              simp
            have : c1 = ' ' := by
              rcases hc1 with hg | rfl
              · exact absurd (good_not_space hg) (by simp [hsp])
              · rfl
            exact absurd ⟨r2, by rw [hs, this]⟩ h
          · simp [if_neg hsp]

/-- The function `replaceSeps` fixes strings with no separator characters. -/
lemma replaceSeps_id {s : List Char} (h : ∀ c ∈ s, isSepChar c = false) :
    replaceSepsAux false s = s := by
  induction s with
  | nil => rfl
  | cons a s ih =>
      simp only [replaceSepsAux, h a (List.mem_cons_self a s), Bool.false_eq_true,
        if_false]
      rw [ih (fun c hc => h c (List.mem_cons_of_mem a hc))]

/-- Consuming a spaceless word prepends its reversal to the accumulator. -/
lemma wordsAux_append_word : ∀ (w cur rest : List Char),
    (∀ c ∈ w, isPySpace c = false) →
    wordsAux cur (w ++ rest) = wordsAux (w.reverse ++ cur) rest := by
  intro w
  induction w with
  | nil => intro cur rest _; simp
  | cons a w ih =>
      intro cur rest h
      rw [List.cons_append]
      show (if isPySpace a = true then _ else wordsAux (a :: cur) (w ++ rest)) = _
      rw [if_neg (by simp [h a (List.mem_cons_self a w)])]
      rw [ih (a :: cur) rest (fun c hc => h c (List.mem_cons_of_mem a hc))]
      rw [List.reverse_cons, List.append_assoc]
      rfl

/-- Splitting the space-join of good words recovers the words. -/
lemma pyWords_joinSp : ∀ {ws : List (List Char)}, GoodWords ws →
    wordsAux [] (joinSp ws) = ws := by
  intro ws
  induction ws with
  | nil => intro _; rfl
  | cons w ws ih =>
      intro h
      have hw : GoodWord w := h w (by simp)
      have hwsp : ∀ c ∈ w, isPySpace c = false := fun c hc =>
        good_not_space (hw.2 c hc)
      cases ws with
      | nil =>
          have hstep := wordsAux_append_word w [] [] hwsp
          rw [List.append_nil] at hstep
          show wordsAux [] w = [w]
          rw [hstep, List.append_nil]
          show (if w.reverse.isEmpty = true then [] else [w.reverse.reverse]) = [w]
          have hwne : ¬ (w.reverse.isEmpty = true) := by
            simp only [List.isEmpty_iff, List.reverse_eq_nil_iff]
            exact hw.1
          rw [if_neg hwne, List.reverse_reverse]
      | cons w' ws' =>
          show wordsAux [] (w ++ ' ' :: joinSp (w' :: ws')) = w :: w' :: ws'
          rw [wordsAux_append_word w [] _ hwsp, List.append_nil]
          show (if isPySpace ' ' = true then
              if w.reverse.isEmpty = true then wordsAux [] (joinSp (w' :: ws'))
              else w.reverse.reverse :: wordsAux [] (joinSp (w' :: ws'))
            else _) = w :: w' :: ws'
          have hwne : ¬ (w.reverse.isEmpty = true) := by
            simp only [List.isEmpty_iff, List.reverse_eq_nil_iff]
            exact hw.1
          rw [if_pos (by decide), if_neg hwne, List.reverse_reverse,
            ih (fun u hu => h u (List.mem_cons_of_mem w hu))]

/-- The space-join of a non-empty family of good words starts with a good
character. -/
lemma joinSp_head {w : List Char} {ws : List (List Char)}
    (h : GoodWords (w :: ws)) :
    ∃ c r, joinSp (w :: ws) = c :: r ∧ goodChar c = true := by
  obtain ⟨hne, hall⟩ := h w (by simp)
  obtain ⟨c, w2, rfl⟩ := List.exists_cons_of_ne_nil hne
  cases ws with
  | nil => exact ⟨c, w2, rfl, hall c (by simp)⟩
  | cons w' ws' =>
      exact ⟨c, w2 ++ ' ' :: joinSp (w' :: ws'), rfl, hall c (by simp)⟩

/-- The space-join of a non-empty family of good words ends with a good
character. -/
lemma joinSp_last : ∀ {w : List Char} {ws : List (List Char)},
    GoodWords (w :: ws) →
    ∃ c, (joinSp (w :: ws)).getLast? = some c ∧ goodChar c = true := by
  intro w ws
  induction ws generalizing w with
  | nil =>
      intro h
      obtain ⟨hne, hall⟩ := h w (by simp)
      have : w.getLast? = some (w.getLast hne) := List.getLast?_eq_getLast w hne
      exact ⟨w.getLast hne, by simpa [joinSp] using this,
        hall _ (List.mem_of_mem_getLast? this)⟩
  | cons w' ws' ih =>
      intro h
      obtain ⟨c, hc, hcg⟩ := ih (fun u hu => h u (List.mem_cons_of_mem w hu))
      refine ⟨c, ?_, hcg⟩
      show (w ++ ' ' :: joinSp (w' :: ws')).getLast? = some c
      rw [List.getLast?_append]
      obtain ⟨d, r, hdr, -⟩ := joinSp_head (fun u hu => h u (List.mem_cons_of_mem w hu))
      rw [hdr] at hc ⊢
      rw [List.getLast?_cons_cons, hc]
      rfl

/-- The function `pyStrip` fixes a string with non-space first and last characters. -/
lemma pyStrip_id {s : List Char} {c d : Char}
    (hhead : s.head? = some c) (hc : isPySpace c = false)
    (hlast : s.getLast? = some d) (hd : isPySpace d = false) :
    pyStrip s = s := by
  obtain ⟨c', r, rfl⟩ := List.exists_cons_of_ne_nil
    (show s ≠ [] from fun h => by simp [h] at hhead)
  have hc' : isPySpace c' = false := by
    have hcc : c' = c := by simpa using hhead
    rw [hcc]
    exact hc
  unfold pyStrip
  rw [List.dropWhile_cons, if_neg (by simp [hc'])]
  have hrev : (c' :: r).reverse.head? = some d := by
    rw [List.head?_reverse]
    exact hlast
  obtain ⟨d', r', hrr⟩ := List.exists_cons_of_ne_nil
    (show (c' :: r).reverse ≠ [] from fun h => by simp [h] at hrev)
  have hd' : isPySpace d' = false := by
    have hdd : d' = d := by
      rw [hrr] at hrev
      simpa using hrev
    rw [hdd]
    exact hd
  rw [hrr, List.dropWhile_cons, if_neg (by simp [hd']), ← hrr,
    List.reverse_reverse]

/-- The function `pyStrip` fixes the space-join of good words. -/
lemma pyStrip_joinSp {ws : List (List Char)} (h : GoodWords ws) :
    pyStrip (joinSp ws) = joinSp ws := by
  cases ws with
  | nil => rfl
  | cons w ws' =>
      obtain ⟨c, r, hcr, hcg⟩ := joinSp_head h
      obtain ⟨d, hd, hdg⟩ := joinSp_last h
      exact pyStrip_id (by rw [hcr]; rfl) (good_not_space hcg) hd
        (good_not_space hdg)

/-- The output of the normalizer is a space-join of good words. -/
lemma normChars_canonical (s : List Char) :
    ∃ ws, GoodWords ws ∧ normChars s = joinSp ws := by
  by_cases hs : s.isEmpty
  · exact ⟨[], fun w hw => absurd hw (by simp), by simp [normChars, hs, joinSp]⟩
  · have hfacts : ∀ c ∈ (replaceSeps (stripLeadPatterns (s.map Char.toLower))).filter
        keepChar, keepChar c = true := fun c hc => (List.mem_filter.mp hc).2
    have hws : GoodWords (pyWordsL ((replaceSeps (stripLeadPatterns
        (s.map Char.toLower))).filter keepChar)) :=
      wordsAux_good _ [] hfacts (by simp)
    refine ⟨_, hws, ?_⟩
    show normChars s = joinSp (pyWordsL _)
    unfold normChars
    rw [if_neg hs]
    exact pyStrip_joinSp hws

/-- The normalizer fixes any space-join of good words that does not begin
with "the ". -/
lemma normChars_fix {ws : List (List Char)} (hws : GoodWords ws)
    (hthe : ¬ ∃ u, joinSp ws = 't' :: 'h' :: 'e' :: ' ' :: u) :
    normChars (joinSp ws) = joinSp ws := by
  have hchars := joinSp_chars hws
  cases ws with
  | nil => simp [joinSp, normChars]
  | cons w ws' =>
      obtain ⟨c0, r0, hcr, hc0g⟩ := joinSp_head hws
      have hne : (joinSp (w :: ws')).isEmpty = false := by
        rw [hcr]
        rfl
      unfold normChars
      rw [hne]
      simp only [Bool.false_eq_true, if_false]
      have hlower : (joinSp (w :: ws')).map Char.toLower = joinSp (w :: ws') :=
        map_eq_self_of_mem (fun c hc => by
          rcases hchars c hc with hg | rfl
          · exact good_toLower hg
          · exact space_toLower (by decide))
      rw [hlower]
      have hstrip : stripLeadPatterns (joinSp (w :: ws')) = joinSp (w :: ws') := by
        unfold stripLeadPatterns
        rw [matchKwNum_none ['l', 'o', 'c', 'a', 'l'] hchars]
        simp only [Option.getD_none]
        rw [matchKwNum_none ['e', 'x', 'p', 'o', 'r', 't'] hchars]
        simp only [Option.getD_none]
        rw [matchTheKw_none hchars hthe]
        rfl
      rw [hstrip]
      have hrep : replaceSeps (joinSp (w :: ws')) = joinSp (w :: ws') := by
        refine replaceSeps_id (fun c hc => ?_)
        rcases hchars c hc with hg | rfl
        · exact good_not_sep hg
        · decide
      rw [hrep]
      have hfil : (joinSp (w :: ws')).filter keepChar = joinSp (w :: ws') := by
        refine List.filter_eq_self.mpr (fun c hc => ?_)
        rcases hchars c hc with hg | rfl
        · exact good_keep hg
        · decide
      rw [hfil]
      have hwrd : pyWordsL (joinSp (w :: ws')) = w :: ws' := pyWords_joinSp hws
      show pyStrip (joinSp (pyWordsL (joinSp (w :: ws')))) = joinSp (w :: ws')
      rw [hwrd]
      exact pyStrip_joinSp hws

/-- C4 counterexample.  Normalization is not idempotent:
`normalize("the the the")` is `"the the"`, and normalizing again strips the
now-leading `"the "`, giving `"the"`. -/
theorem c4_cex_not_idempotent :
    normalize_customer_name (normalize_customer_name "the the the") ≠
      normalize_customer_name "the the the" := by
  decide

/-- C4 (amended).  Normalization is idempotent on every input whose
normalized form does not begin with `"the "`; when it does, the second
application additionally strips that leading `"the "`. -/
theorem c4_normalize_idempotent_amended (name : String)
    (h : (normalize_customer_name name).data.take 4 ≠ ['t', 'h', 'e', ' ']) :
    normalize_customer_name (normalize_customer_name name) =
      normalize_customer_name name := by
  obtain ⟨ws, hws, hcanon⟩ := normChars_canonical name.data
  have hdata : (normalize_customer_name name).data = normChars name.data := rfl
  have hthe : ¬ ∃ u, joinSp ws = 't' :: 'h' :: 'e' :: ' ' :: u := by
    rintro ⟨u, hu⟩
    apply h
    rw [hdata, hcanon, hu]
    rfl
  have key : normChars (normChars name.data) = normChars name.data := by
    rw [hcanon]
    exact normChars_fix hws hthe
  show (⟨normChars (normalize_customer_name name).data⟩ : String) = _
  rw [hdata, key]
  rfl

/-! ### Similarity scorer claims -/

/-- The jaccard/word-match pair is symmetric in its two word-part sets. -/
lemma jaccardWordMatch_comm (p1 p2 : Finset String) :
    jaccardWordMatch p1 p2 = jaccardWordMatch p2 p1 := by
  unfold jaccardWordMatch
  by_cases h : p1.Nonempty ∧ p2.Nonempty
  · rw [if_pos h, if_pos (And.intro h.2 h.1), Finset.inter_comm,
      Finset.union_comm, min_comm p1.card p2.card]
  · rw [if_neg h, if_neg (fun hh => h (And.intro hh.2 hh.1))]

/-- C5.  For names whose normalized forms are both non-empty and distinct,
`calculate_similarity` equals
min(1, 0.4*seq + 0.3*jaccard + 0.2*word_match + 0.1*substring_bonus), with
jaccard and word-match ratio 0 when either word-part set is empty and a
substring bonus of 0.3 when one normalized name contains the other. -/
theorem c5_similarity_formula (a b : String)
    (h1 : normalize_customer_name a ≠ "") (h2 : normalize_customer_name b ≠ "")
    (h3 : normalize_customer_name a ≠ normalize_customer_name b) :
    calculate_similarity a b =
      min 1
        ((4 : ℚ)/10 * seqScore (normalize_customer_name a) (normalize_customer_name b)
          + (3 : ℚ)/10 * (if (extract_name_parts a).toFinset = ∅ ∨
                (extract_name_parts b).toFinset = ∅ then 0
              else (((extract_name_parts a).toFinset ∩
                  (extract_name_parts b).toFinset).card : ℚ) /
                (((extract_name_parts a).toFinset ∪
                  (extract_name_parts b).toFinset).card : ℚ))
          + (2 : ℚ)/10 * (if (extract_name_parts a).toFinset = ∅ ∨
                (extract_name_parts b).toFinset = ∅ then 0
              else (((extract_name_parts a).toFinset ∩
                  (extract_name_parts b).toFinset).card : ℚ) /
                ((min (extract_name_parts a).toFinset.card
                  (extract_name_parts b).toFinset.card : ℕ) : ℚ))
          + (1 : ℚ)/10 * (if hasSubstr (normalize_customer_name a).data
                  (normalize_customer_name b).data ||
                hasSubstr (normalize_customer_name b).data
                  (normalize_customer_name a).data then
                (3 : ℚ)/10
              else 0)) := by
  simp only [calculate_similarity]
  rw [if_neg (by push_neg; exact ⟨h1, h2⟩), if_neg h3, ← min_def, min_comm]
  congr 1
  by_cases hp : (extract_name_parts a).toFinset.Nonempty ∧
      (extract_name_parts b).toFinset.Nonempty
  · have hu : ((extract_name_parts a).toFinset ∪
        (extract_name_parts b).toFinset).Nonempty := hp.1.inl
    have hm : 0 < min (extract_name_parts a).toFinset.card
        (extract_name_parts b).toFinset.card :=
      lt_min (Finset.card_pos.mpr hp.1) (Finset.card_pos.mpr hp.2)
    have hne : ¬((extract_name_parts a).toFinset = ∅ ∨
        (extract_name_parts b).toFinset = ∅) := by
      push_neg
      exact ⟨Finset.nonempty_iff_ne_empty.mp hp.1,
        Finset.nonempty_iff_ne_empty.mp hp.2⟩
    have hjw : jaccardWordMatch (extract_name_parts a).toFinset
        (extract_name_parts b).toFinset =
        ((((extract_name_parts a).toFinset ∩ (extract_name_parts b).toFinset).card : ℚ) /
            (((extract_name_parts a).toFinset ∪ (extract_name_parts b).toFinset).card : ℚ),
         (((extract_name_parts a).toFinset ∩ (extract_name_parts b).toFinset).card : ℚ) /
            ((min (extract_name_parts a).toFinset.card
              (extract_name_parts b).toFinset.card : ℕ) : ℚ)) := by
      rw [jaccardWordMatch, if_pos hp, if_pos hu, if_pos hm]
    simp only [hjw, if_neg hne]
    ring
  · have hjw : jaccardWordMatch (extract_name_parts a).toFinset
        (extract_name_parts b).toFinset = (0, 0) := by
      rw [jaccardWordMatch, if_neg hp]
    have he : (extract_name_parts a).toFinset = ∅ ∨
        (extract_name_parts b).toFinset = ∅ := by
      rcases not_and_or.mp hp with hh | hh
      · exact Or.inl (Finset.not_nonempty_iff_eq_empty.mp hh)
      · exact Or.inr (Finset.not_nonempty_iff_eq_empty.mp hh)
    simp only [hjw, if_pos he]
    ring

/-- C5 witness: the formula at a concrete pair of names with non-empty,
distinct normalized forms. -/
theorem c5_similarity_formula_witness :
    calculate_similarity "ab" "cd" =
      min 1
        ((4 : ℚ)/10 * seqScore (normalize_customer_name "ab") (normalize_customer_name "cd")
          + (3 : ℚ)/10 * (if (extract_name_parts "ab").toFinset = ∅ ∨
                (extract_name_parts "cd").toFinset = ∅ then 0
              else (((extract_name_parts "ab").toFinset ∩
                  (extract_name_parts "cd").toFinset).card : ℚ) /
                (((extract_name_parts "ab").toFinset ∪
                  (extract_name_parts "cd").toFinset).card : ℚ))
          + (2 : ℚ)/10 * (if (extract_name_parts "ab").toFinset = ∅ ∨
                (extract_name_parts "cd").toFinset = ∅ then 0
              else (((extract_name_parts "ab").toFinset ∩
                  (extract_name_parts "cd").toFinset).card : ℚ) /
                ((min (extract_name_parts "ab").toFinset.card
                  (extract_name_parts "cd").toFinset.card : ℕ) : ℚ))
          + (1 : ℚ)/10 * (if hasSubstr (normalize_customer_name "ab").data
                  (normalize_customer_name "cd").data ||
                hasSubstr (normalize_customer_name "cd").data
                  (normalize_customer_name "ab").data then
                (3 : ℚ)/10
              else 0)) :=
  c5_similarity_formula "ab" "cd" (by decide) (by decide) (by decide)

/-- C6 counterexample.  `calculate_similarity` is not symmetric:
SequenceMatcher's greedy block decomposition is order-dependent
(ratio("mxxqq","qqmzxx") = 6/11 but ratio("qqmzxx","mxxqq") = 4/11), so the
blended scores differ. -/
theorem c6_cex_not_symmetric :
    calculate_similarity "mxxqq" "qqmzxx" ≠
      calculate_similarity "qqmzxx" "mxxqq" := by
  decide

/-- C6 (amended).  `calculate_similarity` is symmetric whenever the
SequenceMatcher ratio is symmetric on the two normalized names (every other
signal in the blend is symmetric); it is not symmetric in general. -/
theorem c6_similarity_symm_amended (a b : String)
    (h : seqScore (normalize_customer_name a) (normalize_customer_name b) =
         seqScore (normalize_customer_name b) (normalize_customer_name a)) :
    calculate_similarity a b = calculate_similarity b a := by
  simp only [calculate_similarity]
  by_cases he : normalize_customer_name a = "" ∨ normalize_customer_name b = ""
  · rw [if_pos he, if_pos (Or.symm he)]
  · rw [if_neg he, if_neg (fun hh => he (Or.symm hh))]
    by_cases heq : normalize_customer_name a = normalize_customer_name b
    · rw [if_pos heq, if_pos heq.symm]
    · rw [if_neg heq,
        if_neg (show ¬ normalize_customer_name b = normalize_customer_name a
          from fun hh => heq hh.symm),
        h, jaccardWordMatch_comm, Bool.or_comm]

/-- C6 witness: symmetry at a concrete pair on which the SequenceMatcher
ratio happens to be symmetric. -/
theorem c6_similarity_symm_amended_witness :
    seqScore (normalize_customer_name "ab") (normalize_customer_name "cd") =
      seqScore (normalize_customer_name "cd") (normalize_customer_name "ab") ∧
    calculate_similarity "ab" "cd" = calculate_similarity "cd" "ab" :=
  ⟨by decide, c6_similarity_symm_amended "ab" "cd" (by decide)⟩

/-- C4 witness: idempotence at a concrete name whose normalized form does
not begin with "the ". -/
theorem c4_normalize_idempotent_amended_witness :
    (normalize_customer_name "Farmlands - Kamo").data.take 4 ≠
      ['t', 'h', 'e', ' '] ∧
    normalize_customer_name (normalize_customer_name "Farmlands - Kamo") =
      normalize_customer_name "Farmlands - Kamo" :=
  ⟨by decide, c4_normalize_idempotent_amended "Farmlands - Kamo" (by decide)⟩

/-! ### Bounds on SequenceMatcher blocks (towards C9) -/

lemma bestOK_mono {alo ihi ihi' blo bhi : Nat} {st : FBest} (h : ihi ≤ ihi')
    (hb : BestOK alo ihi blo bhi st) : BestOK alo ihi' blo bhi st := by
  intro hs
  obtain ⟨h1, h2, h3, h4⟩ := hb hs
  exact ⟨h1, le_trans h2 h, h3, h4⟩

/-- The inner loop of `find_longest_match` preserves the bounds invariants
for dictionary and best block. -/
lemma flmInner_ok {alo blo bhi i : Nat} {j2len : Nat → Nat}
    (hj : J2OK alo blo bhi i j2len) (halo : alo ≤ i) :
    ∀ (js : List Nat) (nj : Nat → Nat) (best : FBest),
      (∀ j ∈ js, blo ≤ j ∧ j < bhi) →
      J2OK alo blo bhi (i + 1) nj →
      BestOK alo (i + 1) blo bhi best →
      (best.bestsize = 0 → best = ⟨alo, blo, 0⟩) →
      J2OK alo blo bhi (i + 1) (flmInner i j2len js (nj, best)).1 ∧
      BestOK alo (i + 1) blo bhi (flmInner i j2len js (nj, best)).2 ∧
      ((flmInner i j2len js (nj, best)).2.bestsize = 0 →
        (flmInner i j2len js (nj, best)).2 = ⟨alo, blo, 0⟩) := by
  intro js
  induction js with
  | nil => intro nj best _ hnj hbest hzero; exact ⟨hnj, hbest, hzero⟩
  | cons j js ih =>
      intro nj best hmem hnj hbest hzero
      have hjmem := hmem j (List.mem_cons_self j js)
      have hk : ((if j = 0 then 0 else j2len (j - 1)) + 1) + blo ≤ j + 1 ∧
          ((if j = 0 then 0 else j2len (j - 1)) + 1) + alo ≤ i + 1 := by
        by_cases hj0 : j = 0
        · rw [if_pos hj0]
          subst hj0
          exact ⟨by omega, by omega⟩
        · rw [if_neg hj0]
          by_cases hz : j2len (j - 1) = 0
          · rw [hz]
            exact ⟨by omega, by omega⟩
          · obtain ⟨b1, b2, b3, b4⟩ := hj (j - 1) hz
            exact ⟨by omega, by omega⟩
      show J2OK _ _ _ _ (flmInner i j2len (j :: js) (nj, best)).1 ∧ _
      simp only [flmInner]
      refine ih _ _ (fun u hu => hmem u (List.mem_cons_of_mem j hu)) ?_ ?_ ?_
      · intro j' hj'
        by_cases hjj : j' = j
        · subst hjj
          simp only [if_pos rfl] at hj' ⊢
          exact ⟨hjmem.1, hjmem.2, hk.1, hk.2⟩
        · simp only [if_neg hjj] at hj' ⊢
          exact hnj j' hj'
      · by_cases hlt : best.bestsize < (if j = 0 then 0 else j2len (j - 1)) + 1
        · rw [if_pos hlt]
          intro _
          dsimp only
          omega
        · rw [if_neg hlt]
          exact hbest
      · by_cases hlt : best.bestsize < (if j = 0 then 0 else j2len (j - 1)) + 1
        · rw [if_pos hlt]
          intro hzz
          dsimp only at hzz
          omega
        · rw [if_neg hlt]
          exact hzero

/-- The outer loop of `find_longest_match` preserves the bounds invariant. -/
lemma flmLoop_ok (a b : List Char) (blo bhi alo : Nat) :
    ∀ (n i₀ : Nat), alo ≤ i₀ →
    ∀ (j2len : Nat → Nat) (best : FBest),
      J2OK alo blo bhi i₀ j2len →
      BestOK alo i₀ blo bhi best →
      (best.bestsize = 0 → best = ⟨alo, blo, 0⟩) →
      BestOK alo (i₀ + n) blo bhi
        (flmLoop a b blo bhi (List.range' i₀ n) j2len best) ∧
      ((flmLoop a b blo bhi (List.range' i₀ n) j2len best).bestsize = 0 →
        flmLoop a b blo bhi (List.range' i₀ n) j2len best = ⟨alo, blo, 0⟩) := by
  intro n
  induction n with
  | zero =>
      intro i₀ h j2len best hj hb hz
      simp only [List.range'_zero, flmLoop, Nat.add_zero]
      exact ⟨hb, hz⟩
  | succ n ih =>
      intro i₀ h j2len best hj hb hz
      rw [List.range'_succ]
      simp only [flmLoop]
      have hmem : ∀ j ∈ (b2jList b (a.getD i₀ ' ')).filter
          (fun j => decide (blo ≤ j) && decide (j < bhi)), blo ≤ j ∧ j < bhi := by
        intro j hjm
        have := List.of_mem_filter hjm
        simp only [Bool.and_eq_true, decide_eq_true_eq] at this
        exact this
      have hinner := flmInner_ok hj h _ ((fun _ => 0)) best hmem
        (fun j hj' => absurd rfl hj') (bestOK_mono (Nat.le_succ i₀) hb) hz
      have hrec := ih (i₀ + 1) (by omega) _ _ hinner.1 hinner.2.1 hinner.2.2
      have harith : i₀ + 1 + n = i₀ + (n + 1) := by omega
      rw [harith] at hrec
      exact hrec

/-- The left extension loop preserves the bounds invariant. -/
lemma extLeft_ok (a b : List Char) (alo blo : Nat) :
    ∀ (fuel : Nat) (st : FBest) (ihi bhi : Nat),
      BestOK alo ihi blo bhi st → (st.bestsize = 0 → st = ⟨alo, blo, 0⟩) →
      BestOK alo ihi blo bhi (extLeft a b alo blo fuel st) ∧
      ((extLeft a b alo blo fuel st).bestsize = 0 →
        extLeft a b alo blo fuel st = ⟨alo, blo, 0⟩) := by
  intro fuel
  induction fuel with
  | zero => intro st ihi bhi hb hz; exact ⟨hb, hz⟩
  | succ fuel ih =>
      intro st ihi bhi hb hz
      simp only [extLeft]
      by_cases hg : alo < st.besti ∧ blo < st.bestj ∧
          a.getD (st.besti - 1) ' ' = b.getD (st.bestj - 1) ' '
      · rw [if_pos hg]
        have hsz : st.bestsize ≠ 0 := by
          intro h0
          rw [hz h0] at hg
          exact absurd hg.1 (lt_irrefl alo)
        obtain ⟨b1, b2, b3, b4⟩ := hb hsz
        obtain ⟨hg1, hg2, -⟩ := hg
        refine ih _ _ _ ?_ ?_
        · intro _
          dsimp only
          omega
        · intro hzz
          dsimp only at hzz
          exact absurd hzz (Nat.succ_ne_zero _)
      · rw [if_neg hg]
        exact ⟨hb, hz⟩

/-- The right extension loop preserves the bounds invariant. -/
lemma extRight_ok (a b : List Char) (ahi bhi alo blo : Nat) :
    ∀ (fuel : Nat) (st : FBest),
      BestOK alo ahi blo bhi st → (st.bestsize = 0 → st = ⟨alo, blo, 0⟩) →
      BestOK alo ahi blo bhi (extRight a b ahi bhi fuel st) := by
  intro fuel
  induction fuel with
  | zero => intro st hb _; exact hb
  | succ fuel ih =>
      intro st hb hz
      simp only [extRight]
      by_cases hg : st.besti + st.bestsize < ahi ∧ st.bestj + st.bestsize < bhi ∧
          a.getD (st.besti + st.bestsize) ' ' = b.getD (st.bestj + st.bestsize) ' '
      · rw [if_pos hg]
        obtain ⟨hg1, hg2, -⟩ := hg
        refine ih _ ?_ ?_
        · intro _
          by_cases hsz : st.bestsize = 0
          · have hst := hz hsz
            rw [hst] at hg1 hg2 ⊢
            dsimp only at hg1 hg2 ⊢
            omega
          · obtain ⟨b1, b2, b3, b4⟩ := hb hsz
            dsimp only
            omega
        · intro hzz
          dsimp only at hzz
          exact absurd hzz (Nat.succ_ne_zero _)
      · rw [if_neg hg]
        exact hb

/-- Function `find_longest_match` returns a block inside the window. -/
lemma flm_ok (a b : List Char) (alo ahi blo bhi : Nat) (ha : alo ≤ ahi)
    (hs : (flm a b alo ahi blo bhi).bestsize ≠ 0) :
    alo ≤ (flm a b alo ahi blo bhi).besti ∧
    (flm a b alo ahi blo bhi).besti + (flm a b alo ahi blo bhi).bestsize ≤ ahi ∧
    blo ≤ (flm a b alo ahi blo bhi).bestj ∧
    (flm a b alo ahi blo bhi).bestj + (flm a b alo ahi blo bhi).bestsize ≤ bhi := by
  have hloop := flmLoop_ok a b blo bhi alo (ahi - alo) alo (le_refl alo)
    (fun _ => 0) ⟨alo, blo, 0⟩ (fun j hj => absurd rfl hj)
    (fun h0 => absurd rfl h0) (fun _ => rfl)
  have harith : alo + (ahi - alo) = ahi := by omega
  rw [harith] at hloop
  have hext := extLeft_ok a b alo blo
    (flmLoop a b blo bhi (List.range' alo (ahi - alo)) (fun _ => 0)
      ⟨alo, blo, 0⟩).besti _ ahi bhi hloop.1 hloop.2
  have hfin := extRight_ok a b ahi bhi alo blo
    (ahi - ((extLeft a b alo blo
        (flmLoop a b blo bhi (List.range' alo (ahi - alo)) (fun _ => 0)
          ⟨alo, blo, 0⟩).besti
        (flmLoop a b blo bhi (List.range' alo (ahi - alo)) (fun _ => 0)
          ⟨alo, blo, 0⟩)).besti +
      (extLeft a b alo blo
        (flmLoop a b blo bhi (List.range' alo (ahi - alo)) (fun _ => 0)
          ⟨alo, blo, 0⟩).besti
        (flmLoop a b blo bhi (List.range' alo (ahi - alo)) (fun _ => 0)
          ⟨alo, blo, 0⟩)).bestsize))
    _ hext.1 hext.2
  simp only [flm] at hs ⊢
  exact hfin hs

/-- The total matched size is at most the width of either side of the
window. -/
lemma mtF_le (a b : List Char) :
    ∀ (fuel alo ahi blo bhi : Nat), alo ≤ ahi → blo ≤ bhi →
      mtF a b fuel alo ahi blo bhi ≤ min (ahi - alo) (bhi - blo) := by
  intro fuel
  induction fuel with
  | zero => intro alo ahi blo bhi _ _; simp [mtF]
  | succ fuel ih =>
      intro alo ahi blo bhi ha hb
      simp only [mtF]
      by_cases hz : (flm a b alo ahi blo bhi).bestsize = 0
      · rw [if_pos hz]
        exact Nat.zero_le _
      · rw [if_neg hz]
        obtain ⟨b1, b2, b3, b4⟩ := flm_ok a b alo ahi blo bhi ha hz
        have hL : (if alo < (flm a b alo ahi blo bhi).besti ∧
              blo < (flm a b alo ahi blo bhi).bestj then
              mtF a b fuel alo (flm a b alo ahi blo bhi).besti blo
                (flm a b alo ahi blo bhi).bestj else 0) ≤
            min ((flm a b alo ahi blo bhi).besti - alo)
              ((flm a b alo ahi blo bhi).bestj - blo) := by
          by_cases hg : alo < (flm a b alo ahi blo bhi).besti ∧
              blo < (flm a b alo ahi blo bhi).bestj
          · rw [if_pos hg]
            exact ih alo _ blo _ (le_of_lt hg.1) (le_of_lt hg.2)
          · rw [if_neg hg]
            exact Nat.zero_le _
        have hR : (if (flm a b alo ahi blo bhi).besti +
                (flm a b alo ahi blo bhi).bestsize < ahi ∧
              (flm a b alo ahi blo bhi).bestj +
                (flm a b alo ahi blo bhi).bestsize < bhi then
              mtF a b fuel
                ((flm a b alo ahi blo bhi).besti + (flm a b alo ahi blo bhi).bestsize)
                ahi
                ((flm a b alo ahi blo bhi).bestj + (flm a b alo ahi blo bhi).bestsize)
                bhi else 0) ≤
            min (ahi - ((flm a b alo ahi blo bhi).besti +
                (flm a b alo ahi blo bhi).bestsize))
              (bhi - ((flm a b alo ahi blo bhi).bestj +
                (flm a b alo ahi blo bhi).bestsize)) := by
          by_cases hg : (flm a b alo ahi blo bhi).besti +
                (flm a b alo ahi blo bhi).bestsize < ahi ∧
              (flm a b alo ahi blo bhi).bestj +
                (flm a b alo ahi blo bhi).bestsize < bhi
          · rw [if_pos hg]
            exact ih _ ahi _ bhi (le_of_lt hg.1) (le_of_lt hg.2)
          · rw [if_neg hg]
            exact Nat.zero_le _
        have hL1 := le_trans hL (min_le_left _ _)
        have hL2 := le_trans hL (min_le_right _ _)
        have hR1 := le_trans hR (min_le_left _ _)
        have hR2 := le_trans hR (min_le_right _ _)
        refine le_min ?_ ?_
        · omega
        · omega

/-- The matched total is at most the length of either string. -/
lemma seqMatches_le (a b : List Char) :
    seqMatches a b ≤ min a.length b.length := by
  have := mtF_le a b a.length 0 a.length 0 b.length (Nat.zero_le _) (Nat.zero_le _)
  simpa [seqMatches] using this

/-- The SequenceMatcher ratio never exceeds 1. -/
lemma seqScore_le_one (s1 s2 : String) : seqScore s1 s2 ≤ 1 := by
  unfold seqScore
  by_cases h : s1.data.length + s2.data.length = 0
  · rw [if_pos h]
  · rw [if_neg h]
    have hpos : (0 : ℚ) < (s1.data.length : ℚ) + (s2.data.length : ℚ) := by
      have : 0 < s1.data.length + s2.data.length := Nat.pos_of_ne_zero h
      exact_mod_cast this
    rw [div_le_one hpos]
    have hm := seqMatches_le s1.data s2.data
    have h2 : 2 * seqMatches s1.data s2.data ≤
        s1.data.length + s2.data.length := by
      have := Nat.le_min.mp hm
      omega
    exact_mod_cast h2

/-- Both components of the jaccard/word-match pair lie in [0, 1]. -/
lemma jaccardWordMatch_le_one (p1 p2 : Finset String) :
    (jaccardWordMatch p1 p2).1 ≤ 1 ∧ (jaccardWordMatch p1 p2).2 ≤ 1 := by
  unfold jaccardWordMatch
  by_cases h : p1.Nonempty ∧ p2.Nonempty
  · rw [if_pos h]
    constructor
    · show (if (p1 ∪ p2).Nonempty then
          ((p1 ∩ p2).card : ℚ) / ((p1 ∪ p2).card : ℚ) else 0) ≤ 1
      by_cases hu : (p1 ∪ p2).Nonempty
      · rw [if_pos hu, div_le_one (by exact_mod_cast Finset.card_pos.mpr hu)]
        exact_mod_cast Finset.card_le_card Finset.inter_subset_union
      · rw [if_neg hu]
        norm_num
    · show (if 0 < min p1.card p2.card then
          ((p1 ∩ p2).card : ℚ) / ((min p1.card p2.card : ℕ) : ℚ) else 0) ≤ 1
      by_cases hm : 0 < min p1.card p2.card
      · rw [if_pos hm, div_le_one (by exact_mod_cast hm)]
        exact_mod_cast le_min
          (Finset.card_le_card Finset.inter_subset_left)
          (Finset.card_le_card Finset.inter_subset_right)
      · rw [if_neg hm]
        norm_num
  · rw [if_neg h]
    norm_num

/-- For distinct non-empty normalized names, the blended score is at most
0.93 = 0.4 + 0.3 + 0.2 + 0.1 * 0.3. -/
lemma similarity_le_93 (a b : String)
    (h1 : normalize_customer_name a ≠ "") (h2 : normalize_customer_name b ≠ "")
    (h3 : normalize_customer_name a ≠ normalize_customer_name b) :
    calculate_similarity a b ≤ (93 : ℚ)/100 := by
  simp only [calculate_similarity]
  rw [if_neg (by push_neg; exact ⟨h1, h2⟩), if_neg h3]
  set seq := seqScore (normalize_customer_name a) (normalize_customer_name b)
    with hseq
  set jw := jaccardWordMatch (extract_name_parts a).toFinset
    (extract_name_parts b).toFinset with hjw
  set sub := (if (hasSubstr (normalize_customer_name a).data
        (normalize_customer_name b).data ||
      hasSubstr (normalize_customer_name b).data
        (normalize_customer_name a).data) = true then (3 : ℚ)/10 else 0)
    with hsub
  have hseq1 : seq ≤ 1 := seqScore_le_one _ _
  have hjw1 := jaccardWordMatch_le_one (extract_name_parts a).toFinset
    (extract_name_parts b).toFinset
  rw [← hjw] at hjw1
  have hsub3 : sub ≤ (3 : ℚ)/10 := by
    rw [hsub]
    by_cases hc : (hasSubstr (normalize_customer_name a).data
        (normalize_customer_name b).data ||
      hasSubstr (normalize_customer_name b).data
        (normalize_customer_name a).data) = true
    · rw [if_pos hc]
    · rw [if_neg hc]
      norm_num
  have hfinal : seq * ((4 : ℚ)/10) + jw.1 * ((3 : ℚ)/10) + jw.2 * ((2 : ℚ)/10)
      + sub * ((1 : ℚ)/10) ≤ (93 : ℚ)/100 := by
    have e1 : seq * ((4 : ℚ)/10) ≤ 1 * ((4 : ℚ)/10) :=
      mul_le_mul_of_nonneg_right hseq1 (by norm_num)
    have e2 : jw.1 * ((3 : ℚ)/10) ≤ 1 * ((3 : ℚ)/10) :=
      mul_le_mul_of_nonneg_right hjw1.1 (by norm_num)
    have e3 : jw.2 * ((2 : ℚ)/10) ≤ 1 * ((2 : ℚ)/10) :=
      mul_le_mul_of_nonneg_right hjw1.2 (by norm_num)
    have e4 : sub * ((1 : ℚ)/10) ≤ ((3 : ℚ)/10) * ((1 : ℚ)/10) :=
      mul_le_mul_of_nonneg_right hsub3 (by norm_num)
    calc seq * ((4 : ℚ)/10) + jw.1 * ((3 : ℚ)/10) + jw.2 * ((2 : ℚ)/10)
          + sub * ((1 : ℚ)/10)
        ≤ 1 * ((4 : ℚ)/10) + 1 * ((3 : ℚ)/10) + 1 * ((2 : ℚ)/10)
          + ((3 : ℚ)/10) * ((1 : ℚ)/10) := by
          exact add_le_add (add_le_add (add_le_add e1 e2) e3) e4
      _ = (93 : ℚ)/100 := by norm_num
  rw [if_pos (le_trans hfinal (by norm_num))]
  exact hfinal

/-- The classifier answers "exact" exactly on scores at least 0.95. -/
lemma classify_exact_iff (s : ℚ) :
    classify_match s = "exact" ↔ (95 : ℚ)/100 ≤ s := by
  unfold classify_match
  constructor
  · intro h
    by_contra hlt
    rw [if_neg hlt] at h
    by_cases h7 : (7 : ℚ)/10 ≤ s
    · rw [if_pos h7] at h
      exact absurd h (by decide)
    · rw [if_neg h7] at h
      by_cases h5 : (1 : ℚ)/2 ≤ s
      · rw [if_pos h5] at h
        exact absurd h (by decide)
      · rw [if_neg h5] at h
        exact absurd h (by decide)
  · intro h
    rw [if_pos h]

/-- C9.  For names whose normalized forms are non-empty and distinct, the
similarity is at most 0.93; consequently `classify_match` can answer
"exact" only when the two normalized names are exactly equal. -/
theorem c9_similarity_bound_and_exact :
    (∀ a b : String, normalize_customer_name a ≠ "" →
      normalize_customer_name b ≠ "" →
      normalize_customer_name a ≠ normalize_customer_name b →
      calculate_similarity a b ≤ (93 : ℚ)/100) ∧
    (∀ a b : String, classify_match (calculate_similarity a b) = "exact" →
      normalize_customer_name a = normalize_customer_name b) := by
  refine ⟨similarity_le_93, ?_⟩
  intro a b hcl
  by_cases hemp : normalize_customer_name a = "" ∨ normalize_customer_name b = ""
  · have hz : calculate_similarity a b = 0 := by
      simp only [calculate_similarity]
      rw [if_pos hemp]
    rw [hz] at hcl
    exact absurd hcl (by decide)
  · by_cases heq : normalize_customer_name a = normalize_customer_name b
    · exact heq
    · push_neg at hemp
      have hle := similarity_le_93 a b hemp.1 hemp.2 heq
      have hge := (classify_exact_iff _).mp hcl
      exact absurd (le_trans hge hle) (by norm_num)

/-- C9 witness: the bound at a concrete distinct pair, and exactness at a
concrete pair with equal normalized names. -/
theorem c9_similarity_bound_and_exact_witness :
    calculate_similarity "ab" "cd" ≤ (93 : ℚ)/100 ∧
    normalize_customer_name "ab" = normalize_customer_name "ab" :=
  ⟨c9_similarity_bound_and_exact.1 "ab" "cd" (by decide) (by decide) (by decide),
   c9_similarity_bound_and_exact.2 "ab" "ab" (by decide)⟩

/-! ### Match finder claims (C3, C10) -/

/-- A positive similarity requires both normalized names non-empty. -/
lemma sim_pos_norm {x y : String} (h : 0 < calculate_similarity x y) :
    normalize_customer_name x ≠ "" ∧ normalize_customer_name y ≠ "" := by
  by_contra hc
  rw [not_and_or] at hc
  have hz : calculate_similarity x y = 0 := by
    simp only [calculate_similarity]
    rw [if_pos ?_]
    rcases hc with hc | hc
    · exact Or.inl (not_ne_iff.mp hc)
    · exact Or.inr (not_ne_iff.mp hc)
  rw [hz] at h
  exact absurd h (lt_irrefl 0)

/-- Invariant of the inner loop: a recorded best match carries a score that
equals the running best, meets the threshold, is positive, belongs to the
current Xero row, and has a historical name with non-empty normal form. -/
lemma innerBest_ok (xid xname : String) (ms : ℚ) :
    ∀ (hs : List CustRow) (acc : ℚ × Option CustomerMatch),
      0 ≤ acc.1 →
      (∀ m, acc.2 = some m →
        m.similarity_score = acc.1 ∧ ms ≤ acc.1 ∧ 0 < acc.1 ∧
        m.xero_customer_id = xid ∧
        normalize_customer_name m.historical_customer_name ≠ "") →
      0 ≤ (innerBest xid xname ms hs acc).1 ∧
      (∀ m, (innerBest xid xname ms hs acc).2 = some m →
        m.similarity_score = (innerBest xid xname ms hs acc).1 ∧
        ms ≤ (innerBest xid xname ms hs acc).1 ∧
        0 < (innerBest xid xname ms hs acc).1 ∧
        m.xero_customer_id = xid ∧
        normalize_customer_name m.historical_customer_name ≠ "") := by
  intro hs
  induction hs with
  | nil => intro acc h0 hm; exact ⟨h0, hm⟩
  | cons h hs ih =>
      intro acc h0 hm
      obtain ⟨bestScore, bestMatch⟩ := acc
      simp only [innerBest]
      by_cases hskip : h.customer_name = "" ∨ h.customer_id = xid
      · rw [if_pos hskip]
        exact ih (bestScore, bestMatch) h0 hm
      · rw [if_neg hskip]
        by_cases hupd : ms ≤ calculate_similarity xname h.customer_name ∧
            bestScore < calculate_similarity xname h.customer_name
        · rw [if_pos hupd]
          refine ih _ ?_ ?_
          · exact le_of_lt (lt_of_le_of_lt h0 hupd.2)
          · intro m hm'
            obtain rfl : m = ⟨xid, xname, h.customer_id, h.customer_name,
                calculate_similarity xname h.customer_name,
                classify_match (calculate_similarity xname h.customer_name)⟩ := by
              simpa using hm'.symm
            have hpos : (0 : ℚ) < calculate_similarity xname h.customer_name :=
              lt_of_le_of_lt h0 hupd.2
            exact ⟨rfl, hupd.1, hpos, rfl, (sim_pos_norm hpos).2⟩
        · rw [if_neg hupd]
          exact ih (bestScore, bestMatch) h0 hm

/-- Properties of the pre-sort match list: thresholds, positivity,
non-empty historical normal forms, and one match per Xero row. -/
lemma collectMatches_ok (hist : List CustRow) (ms : ℚ) :
    ∀ xs : List CustRow,
      (∀ m ∈ collectMatches hist ms xs,
        ms ≤ m.similarity_score ∧ 0 < m.similarity_score ∧
        normalize_customer_name m.historical_customer_name ≠ "") ∧
      List.Sublist ((collectMatches hist ms xs).map CustomerMatch.xero_customer_id)
        (xs.map CustRow.customer_id) := by
  intro xs
  induction xs with
  | nil => exact ⟨fun m hm => absurd hm (by simp [collectMatches]), by simp [collectMatches]⟩
  | cons x xs ih =>
      simp only [collectMatches]
      by_cases hempty : x.customer_name = ""
      · rw [if_pos hempty]
        exact ⟨ih.1, ih.2.cons x.customer_id⟩
      · rw [if_neg hempty]
        cases hbest : (innerBest x.customer_id x.customer_name ms hist (0, none)).2 with
        | none => exact ⟨ih.1, ih.2.cons x.customer_id⟩
        | some m =>
            have hinv := (innerBest_ok x.customer_id x.customer_name ms hist
              (0, none) (le_refl 0) (fun m hm => by simp at hm)).2 m hbest
            constructor
            · intro m' hm'
              rcases List.mem_cons.mp hm' with rfl | hm'
              · exact ⟨hinv.1 ▸ hinv.2.1, hinv.1 ▸ hinv.2.2.1, hinv.2.2.2.2⟩
              · exact ih.1 m' hm'
            · show List.Sublist (m.xero_customer_id ::
                (collectMatches hist ms xs).map CustomerMatch.xero_customer_id) _
              rw [hinv.2.2.2.1]
              exact ih.2.cons₂ x.customer_id

/-- The finder's output is a permutation of the collected matches. -/
lemma find_perm (xero hist : List CustRow) (ms : ℚ) :
    List.Perm (find_customer_matches xero hist ms) (collectMatches hist ms xero) :=
  List.perm_insertionSort scoreGE _

/-- With no historical rows, no match is ever produced. -/
lemma collectMatches_nil_hist (ms : ℚ) :
    ∀ xs : List CustRow, collectMatches [] ms xs = [] := by
  intro xs
  induction xs with
  | nil => rfl
  | cons x xs ih =>
      simp only [collectMatches]
      by_cases hempty : x.customer_name = ""
      · rw [if_pos hempty]
        exact ih
      · rw [if_neg hempty]
        show (match (innerBest x.customer_id x.customer_name ms [] (0, none)).2 with
          | none => collectMatches [] ms xs
          | some m => m :: collectMatches [] ms xs) = []
        exact ih

/-- C3.  `find_customer_matches` returns matches scoring at least
`min_score`, sorted by descending similarity; no Xero row is the source of
more than one match (counts of each source id never exceed its input
count, hence distinct input ids give distinct sources); empty inputs give
the empty list. -/
theorem c3_find_matches_contract (xero hist : List CustRow) (ms : ℚ) :
    (∀ m ∈ find_customer_matches xero hist ms, ms ≤ m.similarity_score) ∧
    List.Sorted (fun m1 m2 => m2.similarity_score ≤ m1.similarity_score)
      (find_customer_matches xero hist ms) ∧
    (∀ id : String,
      ((find_customer_matches xero hist ms).map
          CustomerMatch.xero_customer_id).count id ≤
        (xero.map CustRow.customer_id).count id) ∧
    ((xero.map CustRow.customer_id).Nodup →
      ((find_customer_matches xero hist ms).map
          CustomerMatch.xero_customer_id).Nodup) ∧
    find_customer_matches [] hist ms = [] ∧
    find_customer_matches xero [] ms = [] := by
  have hcount : ∀ id : String,
      ((find_customer_matches xero hist ms).map
          CustomerMatch.xero_customer_id).count id ≤
        (xero.map CustRow.customer_id).count id := by
    intro id
    have hperm := (find_perm xero hist ms).map CustomerMatch.xero_customer_id
    rw [hperm.count_eq]
    exact (collectMatches_ok hist ms xero).2.count_le id
  refine ⟨?_, ?_, hcount, ?_, ?_, ?_⟩
  · intro m hm
    exact ((collectMatches_ok hist ms xero).1 m
      ((find_perm xero hist ms).mem_iff.mp hm)).1
  · exact List.sorted_insertionSort scoreGE _
  · intro hnodup
    rw [List.nodup_iff_count_le_one] at hnodup ⊢
    exact fun id => le_trans (hcount id) (hnodup id)
  · rfl
  · show List.insertionSort scoreGE (collectMatches [] ms xero) = []
    rw [collectMatches_nil_hist ms xero]
    rfl

/-- C10.  Every returned match has strictly positive similarity (even with
`min_score = 0`), and a historical candidate whose name normalizes to the
empty string is never selected. -/
theorem c10_matches_positive (xero hist : List CustRow) (ms : ℚ) :
    ∀ m ∈ find_customer_matches xero hist ms,
      0 < m.similarity_score ∧
      normalize_customer_name m.historical_customer_name ≠ "" := by
  intro m hm
  have h := (collectMatches_ok hist ms xero).1 m
    ((find_perm xero hist ms).mem_iff.mp hm)
  exact ⟨h.2.1, h.2.2⟩

/-- C3 witness: the contract applied to a one-row instance, discharging the
membership and no-duplicate hypotheses there. -/
theorem c3_find_matches_contract_witness :
    (1 : ℚ)/2 ≤ mW3.similarity_score ∧
    ((find_customer_matches xsW3 hsW3 ((1 : ℚ)/2)).map
        CustomerMatch.xero_customer_id).Nodup ∧
    find_customer_matches xsW3 [] ((1 : ℚ)/2) = [] :=
  ⟨(c3_find_matches_contract xsW3 hsW3 ((1 : ℚ)/2)).1 mW3 (by decide),
   (c3_find_matches_contract xsW3 hsW3 ((1 : ℚ)/2)).2.2.2.1 (by decide),
   (c3_find_matches_contract xsW3 hsW3 ((1 : ℚ)/2)).2.2.2.2.2⟩

/-- C10 witness: positivity and non-empty historical normal form at a
concrete match of a concrete run with `min_score = 0`. -/
theorem c10_matches_positive_witness :
    0 < mW10.similarity_score ∧
    normalize_customer_name mW10.historical_customer_name ≠ "" :=
  c10_matches_positive xsW10 hsW10 0 mW10 (by decide)

end DataMgmt
